import Mathlib

/-!
Shallow embedding of `src/budgetizer.cpp`: a design-space search over
multi-tier storage configurations.  C++ `float` quantities are modelled as
exact rationals (`ℚ`); `std::vector` as `List`; out-of-range vector indexing
(undefined behaviour in C++) as an `Option` failure where the source can
actually run past a bound, and as `getD`/`set` accesses elsewhere, used only
under the program's length invariants (all per-tier vectors have length
`techs.length`).  The global catalog `techs` of the source becomes an explicit
parameter of each function, plus the concrete catalog value below.
-/

namespace Budgetizer

/-- `struct Tech` from the source: one storage technology tier. -/
structure Tech where
  name : String
  capacity : ℚ
  cost : ℚ
  IOs : ℚ
  latency : ℚ
  max : ℕ
deriving DecidableEq

instance : Inhabited Tech := ⟨⟨"", 0, 0, 0, 0, 0⟩⟩

/-- `struct AccessGroup` from the source: one workload bucket. -/
structure AccessGroup where
  fraction : ℚ
  size : ℚ
deriving DecidableEq

instance : Inhabited AccessGroup := ⟨⟨0, 0⟩⟩

/-- `typedef vector<unsigned> Config`. -/
abbrev Config := List ℕ

/-- `typedef vector<AccessGroup> Workload`. -/
abbrev Workload := List AccessGroup

/-- Unit constant `MB = 1024ull*1024` of the source. -/
def MB : ℚ := 1024 * 1024

/-- Unit constant `GB = 1024*MB` of the source. -/
def GB : ℚ := 1024 * MB

/-- Unit constant `TB = 1024*GB` of the source. -/
def TB : ℚ := 1024 * GB

/-- Unit constant `K = 1e3` of the source. -/
def K : ℚ := 1000

/-- Unit constant `M = 1e6` of the source. -/
def M : ℚ := 1000000

/-- Unit constant `ms = 1/1e3` of the source. -/
def ms : ℚ := 1 / 1000

/-- Unit constant `us = 1/1e6` of the source. -/
def us : ℚ := 1 / 1000000

/-- Unit constant `ns = 1/1e9` of the source. -/
def ns : ℚ := 1 / 1000000000

/-- The concrete technology catalog `vector<Tech> techs` of the source. -/
def techs : List Tech :=
  [⟨"RAM", 64 * GB, 500, 10 * M, 100 * ns, 16⟩,
   ⟨"NVM", 256 * GB, 500, 5 * M, 400 * ns, 8⟩,
   ⟨"SSD", 1 * TB, 500, 500 * K, 100 * us, 16⟩,
   ⟨"HDD", 4 * TB, 200, 100, 10 * ms, 16⟩]

/-- Total capacity of tier `t` under `config`:
`config[t] * techs[t].capacity`, the expression the source repeats. -/
def tierCap (techs : List Tech) (config : Config) (t : ℕ) : ℚ :=
  (config.getD t 0 : ℚ) * (techs.getD t default).capacity

/-- `sumSpaceNeeded` accumulator of `isValid` (lines 46-48):
sum of the sizes of all access groups. -/
def sumSpaceNeeded (workload : Workload) : ℚ :=
  (workload.map AccessGroup.size).sum

/-- The `indexes` vector of `isValid` (lines 49-52): tier indices with a
nonzero device count, in tier order. -/
def indexes (techs : List Tech) (config : Config) : List ℕ :=
  (List.range techs.length).filter (fun t => config.getD t 0 != 0)

/-- The pairwise loop of `isValid` (lines 53-55) applied to the list of
populated-tier capacities: fails as soon as a capacity is strictly below its
predecessor. -/
def inclusiveChainOk : List ℚ → Bool
  | [] => true
  | [_] => true
  | a :: b :: rest => if b < a then false else inclusiveChainOk (b :: rest)

/-- `isValid(config, workload)` (lines 43-59). -/
def isValid (techs : List Tech) (config : Config) (workload : Workload) : Bool :=
  if config.getD 0 0 = 0 then
    false
  else if inclusiveChainOk ((indexes techs config).map (tierCap techs config)) = false then
    false
  else if ((indexes techs config).map (tierCap techs config)).getLast?.getD 0
      < sumSpaceNeeded workload then
    false
  else
    true

/-- `configCost(config)` (lines 61-66). -/
def configCost (techs : List Tech) (config : Config) : ℚ :=
  ((List.range techs.length).map
    (fun i => (config.getD i 0 : ℚ) * (techs.getD i default).cost)).sum

/-- `avgTimePerAccess(accessFractions)` (lines 69-74). -/
def avgTimePerAccess (techs : List Tech) (accessFractions : List ℚ) : ℚ :=
  ((List.range accessFractions.length).map
    (fun i => accessFractions.getD i 0 * (1 / (techs.getD i default).IOs))).sum

/-- `avgLatencyPerAccess(accessFractions)` (lines 77-82). -/
def avgLatencyPerAccess (techs : List Tech) (accessFractions : List ℚ) : ℚ :=
  ((List.range accessFractions.length).map
    (fun i => accessFractions.getD i 0 * (techs.getD i default).latency)).sum

/-- The `while (true)` loop body of `computeAccessFractions` (lines 103-116)
for one access group: place the group, spilling to slower tiers while its size
exceeds the remaining capacity of the current tier.  Returns the new tier
index, the remaining capacity of that tier, and the updated fractions, or
`none` where the C++ would index `techs`/`config`/`fractionsOut` out of range
(undefined behaviour). -/
def placeGroup (techs : List Tech) (config : Config) (g : AccessGroup)
    (tech : ℕ) (techCapacity : ℚ) (fractionsOut : List ℚ) :
    Option (ℕ × ℚ × List ℚ) :=
  if _htech : tech < techs.length then
    if techCapacity < g.size then
      let f : ℚ := (techCapacity / g.size) * g.fraction
      let fractionsOut1 := fractionsOut.set tech (fractionsOut.getD tech 0 + f)
      if _hnext : tech + 1 < techs.length then
        placeGroup techs config ⟨g.fraction - f, g.size⟩ (tech + 1)
          (tierCap techs config (tech + 1)) fractionsOut1
      else none
    else
      some (tech, techCapacity - g.size,
        fractionsOut.set tech (fractionsOut.getD tech 0 + g.fraction))
  else none
termination_by techs.length - tech

/-- The outer `for (AccessGroup g : workload)` loop of
`computeAccessFractions` (lines 102-117), threading the current tier index and
its remaining capacity from one group to the next. -/
def computeAccessFractionsGo (techs : List Tech) (config : Config) :
    Workload → ℕ → ℚ → List ℚ → Option (List ℚ)
  | [], _, _, fractionsOut => some fractionsOut
  | g :: gs, tech, techCapacity, fractionsOut =>
    match placeGroup techs config g tech techCapacity fractionsOut with
    | none => none
    | some (tech1, cap1, fr1) => computeAccessFractionsGo techs config gs tech1 cap1 fr1

/-- `computeAccessFractions(workload, config, fractionsOut)` (lines 98-118).
The first statement `fill(fractionsOut.begin(), fractionsOut.end(), 0)` makes
the prior contents of the output buffer irrelevant: only its length survives,
as `List.replicate fractionsOut.length 0`.  `none` models the out-of-range
indexing the C++ performs on an empty catalog or when a group overruns the
last tier. -/
def computeAccessFractions (techs : List Tech) (workload : Workload)
    (config : Config) (fractionsOut : List ℚ) : Option (List ℚ) :=
  if 0 < techs.length then
    computeAccessFractionsGo techs config workload 0 (tierCap techs config 0)
      (List.replicate fractionsOut.length 0)
  else none

/-- `numeric_limits<float>::max()`, exactly: `(2 - 2^-23) * 2^127`.  The
source initializes `bestCost` and `bestTime` to this sentinel (lines 123-124);
the spec refers to it as the +infinity / no-solution sentinel. -/
def floatMax : ℚ := 2 ^ 128 - 2 ^ 104

/-- The best-so-far accumulator of `findBestConfig`
(`bestCost`, `bestTime`, `bestConfig`, `bestAccessFractions`, lines 123-126). -/
structure SearchState where
  bestCost : ℚ
  bestTime : ℚ
  bestConfig : Config
  bestFractions : List ℚ
deriving DecidableEq

/-- Initial search state (lines 123-126): sentinel cost and time, all-zero
configuration and fractions. -/
def initState (techs : List Tech) : SearchState :=
  { bestCost := floatMax
    bestTime := floatMax
    bestConfig := List.replicate techs.length 0
    bestFractions := List.replicate techs.length 0 }

/-- The metric selected by `optimizeThroughput` (line 137). -/
def timeMetric (techs : List Tech) (optimizeThroughput : Bool)
    (fractions : List ℚ) : ℚ :=
  if optimizeThroughput then avgTimePerAccess techs fractions
  else avgLatencyPerAccess techs fractions

/-- The leaf body of `enumerate` (lines 130-146): validity filter, cost
filter, scoring, and best-so-far update.  The shared `accessFractions` buffer
of the source always has length `techs.length` and is fully overwritten by
`computeAccessFractions`, so it enters here as `List.replicate techs.length 0`. -/
def evalLeaf (techs : List Tech) (workload : Workload) (costLimit : ℚ)
    (optimizeThroughput : Bool) (s : SearchState) (config : Config) :
    Option SearchState :=
  if isValid techs config workload then
    if configCost techs config < costLimit then
      (computeAccessFractions techs workload config
        (List.replicate techs.length 0)).map (fun fractions =>
          if timeMetric techs optimizeThroughput fractions < s.bestTime ∨
              (timeMetric techs optimizeThroughput fractions = s.bestTime ∧
                configCost techs config < s.bestCost) then
            { bestCost := configCost techs config
              bestTime := timeMetric techs optimizeThroughput fractions
              bestConfig := config
              bestFractions := fractions }
          else
            s)
    else
      some s
  else
    some s

/-- All complete configurations visited by the recursive `enumerate`
(lines 149-152), in enumeration order: tier 0 is the outermost loop, the last
tier the innermost, each count ranging over `[0, techs[t].max)`. -/
def allConfigs : List Tech → List Config
  | [] => [[]]
  | t :: ts => (List.range t.max).flatMap (fun c => (allConfigs ts).map (fun rest => c :: rest))

/-- `findBestConfig(workload, costLimit, optimizeThroughput)` (lines 120-167),
as the fold of the leaf body over all enumerated configurations.  The source
returns `bestConfig`; the full final accumulator is kept here so that the
returned cost, time and fractions can be spoken about as well. -/
def findBestConfig (techs : List Tech) (workload : Workload) (costLimit : ℚ)
    (optimizeThroughput : Bool) : Option SearchState :=
  (allConfigs techs).foldlM (evalLeaf techs workload costLimit optimizeThroughput)
    (initState techs)

/-- Restatement of claim C5's wording for the feasibility predicate, to be
compared with `isValid` as embedded from the source: `config[0]` nonzero, no
populated tier's total capacity strictly below the previous populated tier's,
and the last populated tier's total capacity not strictly below the summed
group sizes. -/
def isValidSpec (techs : List Tech) (config : Config) (workload : Workload) : Prop :=
  config.getD 0 0 ≠ 0 ∧
  List.Chain' (fun a b => ¬ (b < a)) ((indexes techs config).map (tierCap techs config)) ∧
  ¬ (((indexes techs config).map (tierCap techs config)).getLast?.getD 0
      < sumSpaceNeeded workload)

/-- The two leaf filters of `enumerate` (lines 133-135): validity and strict
cost bound. -/
def passes (techs : List Tech) (workload : Workload) (costLimit : ℚ)
    (c : Config) : Bool :=
  isValid techs c workload && decide (configCost techs c < costLimit)

/-- The enumerated configurations surviving both filters, in enumeration
order. -/
def candidates (techs : List Tech) (workload : Workload) (costLimit : ℚ) :
    List Config :=
  (allConfigs techs).filter (passes techs workload costLimit)

/-- The access fractions computed for a configuration at a leaf (line 136). -/
def fractionsOf (techs : List Tech) (workload : Workload) (c : Config) :
    Option (List ℚ) :=
  computeAccessFractions techs workload c (List.replicate techs.length 0)

/-- The scored time of a configuration (line 137), when the simulator
succeeds. -/
def timeOf (techs : List Tech) (workload : Workload) (optimizeThroughput : Bool)
    (c : Config) : Option ℚ :=
  (fractionsOf techs workload c).map (timeMetric techs optimizeThroughput)

/-- The pure best-so-far update (lines 138-143) for a configuration that
already passed both filters. -/
def updateBest (techs : List Tech) (workload : Workload) (optimizeThroughput : Bool)
    (s : SearchState) (c : Config) : SearchState :=
  match fractionsOf techs workload c with
  | none => s
  | some fractions =>
    if timeMetric techs optimizeThroughput fractions < s.bestTime ∨
        (timeMetric techs optimizeThroughput fractions = s.bestTime ∧
          configCost techs c < s.bestCost) then
      { bestCost := configCost techs c
        bestTime := timeMetric techs optimizeThroughput fractions
        bestConfig := c
        bestFractions := fractions }
    else
      s

/-- Invariant of the best-so-far state after processing the filtered prefix
`p`: the state lexicographically (time, then cost) lower-bounds every
candidate seen, and its configuration is the first of `p` achieving its time
and cost. -/
def RunningBest (techs : List Tech) (workload : Workload) (optimizeThroughput : Bool)
    (p : List Config) (s : SearchState) : Prop :=
  (∀ c ∈ p, ∀ tc, timeOf techs workload optimizeThroughput c = some tc →
      s.bestTime < tc ∨ (s.bestTime = tc ∧ s.bestCost ≤ configCost techs c)) ∧
  p.find? (fun c => decide (timeOf techs workload optimizeThroughput c = some s.bestTime ∧
      configCost techs c = s.bestCost)) = some s.bestConfig ∧
  timeOf techs workload optimizeThroughput s.bestConfig = some s.bestTime ∧
  configCost techs s.bestConfig = s.bestCost

/-- A one-tier demonstration catalog used in the concrete instantiations
below. -/
def demoTechs : List Tech :=
  [⟨"T", 10, 5, 1, 1, 3⟩]

/-! ## Helper lemmas -/

theorem inclusiveChainOk_iff (caps : List ℚ) :
    inclusiveChainOk caps = true ↔ List.Chain' (fun a b => ¬ (b < a)) caps := by
  induction caps with
  | nil => simp [inclusiveChainOk]
  | cons a rest ih =>
    cases rest with
    | nil => simp [inclusiveChainOk]
    | cons b rest2 =>
      rw [inclusiveChainOk, List.chain'_cons]
      by_cases h : b < a
      · simp [h]
      · simp [h, ih]

/-- `isValid` coincides with the declarative feasibility predicate. -/
theorem isValid_iff_spec (techs : List Tech) (config : Config) (workload : Workload) :
    isValid techs config workload = true ↔ isValidSpec techs config workload := by
  unfold isValid isValidSpec
  by_cases h0 : config.getD 0 0 = 0
  · rw [if_pos h0]
    constructor
    · intro h
      exact absurd h Bool.false_ne_true
    · rintro ⟨hne, -, -⟩
      exact absurd h0 hne
  · rw [if_neg h0]
    by_cases h1 : inclusiveChainOk ((indexes techs config).map (tierCap techs config)) = false
    · rw [if_pos h1]
      constructor
      · intro h
        exact absurd h Bool.false_ne_true
      · rintro ⟨-, hch, -⟩
        rw [← inclusiveChainOk_iff] at hch
        rw [hch] at h1
        exact (Bool.false_ne_true h1.symm).elim
    · rw [if_neg h1]
      rw [Bool.not_eq_false] at h1
      by_cases h2 : ((indexes techs config).map (tierCap techs config)).getLast?.getD 0
          < sumSpaceNeeded workload
      · rw [if_pos h2]
        constructor
        · intro h
          exact absurd h Bool.false_ne_true
        · rintro ⟨-, -, hlast⟩
          exact absurd h2 hlast
      · rw [if_neg h2]
        constructor
        · intro _
          exact ⟨h0, (inclusiveChainOk_iff _).mp h1, h2⟩
        · intro _
          rfl

theorem mem_indexes (techs : List Tech) (config : Config) (t : ℕ) :
    t ∈ indexes techs config ↔ t < techs.length ∧ config.getD t 0 ≠ 0 := by
  simp [indexes, List.mem_filter, List.mem_range]

theorem indexes_ne_nil (techs : List Tech) (config : Config)
    (htechs : 0 < techs.length) (h0 : config.getD 0 0 ≠ 0) :
    indexes techs config ≠ [] :=
  List.ne_nil_of_mem ((mem_indexes techs config 0).mpr ⟨htechs, h0⟩)

/-- A valid configuration has a populated tier whose total capacity covers the
whole working set: the last populated tier. -/
theorem isValid_lastCap (techs : List Tech) (config : Config) (workload : Workload)
    (htechs : 0 < techs.length) (hv : isValid techs config workload = true) :
    ∃ L, L < techs.length ∧ config.getD L 0 ≠ 0 ∧
      sumSpaceNeeded workload ≤ tierCap techs config L := by
  obtain ⟨h0, -, hlast⟩ := (isValid_iff_spec techs config workload).mp hv
  have hne : indexes techs config ≠ [] := indexes_ne_nil techs config htechs h0
  obtain ⟨hL, hpop⟩ := (mem_indexes techs config _).mp (List.getLast_mem hne)
  refine ⟨(indexes techs config).getLast hne, hL, hpop, ?_⟩
  rw [List.getLast?_map, List.getLast?_eq_getLast _ hne] at hlast
  simpa using not_lt.mp hlast

theorem getD_ne_lt_length (config : Config) (t : ℕ) (h : config.getD t 0 ≠ 0) :
    t < config.length := by
  by_contra hge
  exact h (List.getD_eq_default config 0 (not_lt.mp hge))

theorem indexes_sorted (techs : List Tech) (config : Config) :
    List.Pairwise (· < ·) (indexes techs config) :=
  List.Pairwise.filter _ (List.pairwise_lt_range _)

theorem getLast_indexes_eq (techs : List Tech) (config : Config) (L : ℕ)
    (hL : L ∈ indexes techs config) (hmax : ∀ t ∈ indexes techs config, t ≤ L)
    (hne : indexes techs config ≠ []) :
    (indexes techs config).getLast hne = L := by
  have hsort := indexes_sorted techs config
  have hd : indexes techs config
      = (indexes techs config).dropLast ++ [(indexes techs config).getLast hne] :=
    (List.dropLast_append_getLast hne).symm
  have hle : (indexes techs config).getLast hne ≤ L := hmax _ (List.getLast_mem hne)
  rw [hd] at hL hsort
  rcases List.mem_append.mp hL with h | h
  · have := (List.pairwise_append.mp hsort).2.2 _ h _ (List.mem_singleton_self _)
    omega
  · exact (List.mem_singleton.mp h).symm

theorem dropLast_indexes_lt (techs : List Tech) (config : Config) (L : ℕ)
    (hL : L ∈ indexes techs config) (hmax : ∀ t ∈ indexes techs config, t ≤ L)
    (hne : indexes techs config ≠ []) :
    ∀ t ∈ (indexes techs config).dropLast, t < L := by
  intro t ht
  have hsort := indexes_sorted techs config
  have hd : indexes techs config
      = (indexes techs config).dropLast ++ [(indexes techs config).getLast hne] :=
    (List.dropLast_append_getLast hne).symm
  rw [hd] at hsort
  have := (List.pairwise_append.mp hsort).2.2 _ ht _ (List.mem_singleton_self _)
  rwa [getLast_indexes_eq techs config L hL hmax hne] at this

/-- Increasing the device count of the last populated tier preserves
feasibility. -/
theorem isValid_bump_last (techs : List Tech) (config : Config) (workload : Workload)
    (hcaps : ∀ t ∈ techs, 0 ≤ t.capacity) (L k : ℕ)
    (hL : L ∈ indexes techs config) (hmax : ∀ t ∈ indexes techs config, t ≤ L)
    (hv : isValid techs config workload = true) :
    isValid techs (config.set L (config.getD L 0 + k)) workload = true := by
  obtain ⟨h0, hch, hlast⟩ := (isValid_iff_spec techs config workload).mp hv
  obtain ⟨hLt, hpop⟩ := (mem_indexes techs config L).mp hL
  have hLlen : L < config.length := getD_ne_lt_length config L hpop
  set config2 := config.set L (config.getD L 0 + k) with hc2
  have hgetL : config2.getD L 0 = config.getD L 0 + k := by
    simp [hc2, List.getD, List.getElem?_set, hLlen]
  have hgetO : ∀ t, t ≠ L → config2.getD t 0 = config.getD t 0 := by
    intro t htL
    simp [hc2, List.getD, List.getElem?_set, Ne.symm htL]
  have hget : ∀ t, config.getD t 0 ≤ config2.getD t 0 := by
    intro t
    by_cases htL : t = L
    · subst htL
      rw [hgetL]
      omega
    · rw [hgetO t htL]
  have hidx : indexes techs config2 = indexes techs config := by
    apply List.filter_congr
    intro t _
    by_cases htL : t = L
    · subst htL
      rw [hgetL, Bool.eq_iff_iff, bne_iff_ne, bne_iff_ne]
      omega
    · rw [hgetO t htL]
  have hcap2 : ∀ t, tierCap techs config t ≤ tierCap techs config2 t := by
    intro t
    unfold tierCap
    by_cases htlen : t < techs.length
    · have hmem : techs.getD t default ∈ techs := by
        rw [List.getD_eq_getElem techs default htlen]
        exact List.getElem_mem htlen
      exact mul_le_mul_of_nonneg_right (by exact_mod_cast hget t) (hcaps _ hmem)
    · rw [List.getD_eq_default techs default (not_lt.mp htlen)]
      have hd0 : (default : Tech).capacity = 0 := rfl
      rw [hd0, mul_zero, mul_zero]
  have hcapO : ∀ t, t ≠ L → tierCap techs config2 t = tierCap techs config t := by
    intro t htL
    unfold tierCap
    rw [hgetO t htL]
  have hne : indexes techs config ≠ [] := List.ne_nil_of_mem hL
  have hdec : indexes techs config = (indexes techs config).dropLast ++ [L] := by
    conv_lhs => rw [← List.dropLast_append_getLast hne]
    rw [getLast_indexes_eq techs config L hL hmax hne]
  have hdroplt := dropLast_indexes_lt techs config L hL hmax hne
  have hmapdrop : (indexes techs config).dropLast.map (tierCap techs config2)
      = (indexes techs config).dropLast.map (tierCap techs config) := by
    apply List.map_congr_left
    intro t ht
    exact hcapO t (Nat.ne_of_lt (hdroplt t ht))
  apply (isValid_iff_spec techs config2 workload).mpr
  refine ⟨?_, ?_, ?_⟩
  · by_cases h0L : 0 = L
    · rw [← h0L] at hgetL
      rw [hgetL]
      intro hzero
      omega
    · rw [hgetO 0 h0L]
      exact h0
  · rw [hidx, hdec, List.map_append, hmapdrop]
    rw [hdec, List.map_append] at hch
    rw [List.chain'_append] at hch ⊢
    refine ⟨hch.1, List.chain'_singleton _, ?_⟩
    intro x hx y hy
    simp only [List.map_cons, List.map_nil, List.head?_cons, Option.mem_def,
      Option.some.injEq] at hy
    have hnl := hch.2.2 x hx (tierCap techs config L) (by simp)
    subst hy
    intro hlt
    exact hnl (lt_of_le_of_lt (hcap2 L) hlt)
  · rw [hidx, hdec, List.map_append]
    rw [hdec, List.map_append] at hlast
    simp only [List.map_cons, List.map_nil, List.getLast?_concat,
      Option.getD_some] at hlast ⊢
    intro hlt
    exact hlast (lt_of_le_of_lt (hcap2 L) hlt)

theorem sum_set_getD (l : List ℚ) (i : ℕ) (x : ℚ) (h : i < l.length) :
    (l.set i (l.getD i 0 + x)).sum = l.sum + x := by
  induction l generalizing i with
  | nil => simp at h
  | cons a rest ih =>
    cases i with
    | zero => simp [List.getD]; ring
    | succ j =>
      have hj : j < rest.length := by simpa using h
      simp only [List.set, List.sum_cons, List.getD_cons_succ]
      rw [ih j hj]
      ring

theorem tierCap_nonneg (techs : List Tech) (config : Config)
    (hcaps : ∀ t ∈ techs, 0 ≤ t.capacity) (t : ℕ) :
    0 ≤ tierCap techs config t := by
  unfold tierCap
  by_cases ht : t < techs.length
  · have hmem : techs.getD t default ∈ techs := by
      rw [List.getD_eq_getElem techs default ht]
      exact List.getElem_mem ht
    exact mul_nonneg (by positivity) (hcaps _ hmem)
  · rw [List.getD_eq_default techs default (not_lt.mp ht)]
    have hd0 : (default : Tech).capacity = 0 := rfl
    rw [hd0, mul_zero]

/-- Core invariant of the spill loop: starting at or before a tier `L` whose
total capacity covers the group and everything after it, the loop succeeds,
never moves past `L`, leaves enough capacity at `L` for what follows, and adds
exactly the group's fraction to the output buffer. -/
theorem placeGroup_success (techs : List Tech) (config : Config) (L : ℕ) (S : ℚ)
    (hLt : L < techs.length) (hS : 0 ≤ S) :
    ∀ fuel g tech techCapacity fractionsOut,
      L + 1 - tech ≤ fuel →
      tech ≤ L → 0 ≤ g.size →
      g.size + S ≤ tierCap techs config L →
      (tech = L → g.size + S ≤ techCapacity) →
      techs.length ≤ fractionsOut.length →
      ∃ tech1 cap1 fr1,
        placeGroup techs config g tech techCapacity fractionsOut
          = some (tech1, cap1, fr1) ∧
        tech1 ≤ L ∧ (tech1 = L → S ≤ cap1) ∧
        fr1.length = fractionsOut.length ∧
        fr1.sum = fractionsOut.sum + g.fraction := by
  intro fuel
  induction fuel with
  | zero =>
    intro g tech techCapacity fractionsOut hfuel htL _ _ _ _
    omega
  | succ n ih =>
    intro g tech techCapacity fractionsOut hfuel htL hsz hcapL hcap hlen
    have htech : tech < techs.length := lt_of_le_of_lt htL hLt
    have htfr : tech < fractionsOut.length := lt_of_lt_of_le htech hlen
    rw [placeGroup]
    rw [dif_pos htech]
    by_cases hover : techCapacity < g.size
    · rw [if_pos hover]
      have htLne : tech ≠ L := by
        intro heq
        have := hcap heq
        linarith
      have htL1 : tech + 1 ≤ L := by omega
      have hnext : tech + 1 < techs.length := lt_of_le_of_lt htL1 hLt
      rw [dif_pos hnext]
      obtain ⟨tech1, cap1, fr1, heq, h1, h2, h3, h4⟩ :=
        ih ⟨g.fraction - (techCapacity / g.size) * g.fraction, g.size⟩ (tech + 1)
          (tierCap techs config (tech + 1))
          (fractionsOut.set tech
            (fractionsOut.getD tech 0 + (techCapacity / g.size) * g.fraction))
          (by omega) htL1 hsz hcapL
          (by
            intro heq
            rw [heq]
            exact hcapL)
          (by rw [List.length_set]; exact hlen)
      refine ⟨tech1, cap1, fr1, heq, h1, h2, ?_, ?_⟩
      · rw [h3, List.length_set]
      · rw [h4, sum_set_getD fractionsOut tech _ htfr]
        ring
    · rw [if_neg hover]
      refine ⟨tech, techCapacity - g.size,
        fractionsOut.set tech (fractionsOut.getD tech 0 + g.fraction),
        rfl, htL, ?_, by rw [List.length_set], ?_⟩
      · intro heq
        have := hcap heq
        linarith
      · exact sum_set_getD fractionsOut tech _ htfr

/-- The group loop preserves the spill-loop invariant across the whole
workload. -/
theorem computeAccessFractionsGo_success (techs : List Tech) (config : Config)
    (L : ℕ) (hLt : L < techs.length) :
    ∀ (gs : Workload) (tech : ℕ) (techCapacity : ℚ) (fractionsOut : List ℚ),
      (∀ g ∈ gs, 0 ≤ g.size) →
      tech ≤ L →
      sumSpaceNeeded gs ≤ tierCap techs config L →
      (tech = L → sumSpaceNeeded gs ≤ techCapacity) →
      techs.length ≤ fractionsOut.length →
      ∃ out, computeAccessFractionsGo techs config gs tech techCapacity fractionsOut
          = some out ∧
        out.length = fractionsOut.length ∧
        out.sum = fractionsOut.sum + (gs.map AccessGroup.fraction).sum := by
  intro gs
  induction gs with
  | nil =>
    intro tech techCapacity fractionsOut _ _ _ _ _
    exact ⟨fractionsOut, rfl, rfl, by simp⟩
  | cons g rest ih =>
    intro tech techCapacity fractionsOut hsz htL hsum hcap hlen
    have hsz0 : 0 ≤ g.size := hsz g (List.mem_cons_self g rest)
    have hszr : ∀ h ∈ rest, 0 ≤ h.size := fun h hm => hsz h (List.mem_cons_of_mem g hm)
    have hS : 0 ≤ sumSpaceNeeded rest := by
      unfold sumSpaceNeeded
      apply List.sum_nonneg
      intro x hx
      obtain ⟨a, ha, rfl⟩ := List.mem_map.mp hx
      exact hszr a ha
    have hsplit : sumSpaceNeeded (g :: rest) = g.size + sumSpaceNeeded rest := by
      simp [sumSpaceNeeded]
    obtain ⟨tech1, cap1, fr1, heq, h1, h2, h3, h4⟩ :=
      placeGroup_success techs config L (sumSpaceNeeded rest) hLt hS
        (L + 1 - tech) g tech techCapacity fractionsOut le_rfl htL hsz0
        (by rw [← hsplit]; exact hsum)
        (by
          intro heq
          rw [← hsplit]
          exact hcap heq)
        hlen
    obtain ⟨out, hout, hlen2, hsum2⟩ :=
      ih tech1 cap1 fr1 hszr h1
        (le_trans (by linarith [hsplit]) hsum)
        h2 (by rw [h3]; exact hlen)
    refine ⟨out, ?_, by rw [hlen2, h3], ?_⟩
    · rw [computeAccessFractionsGo, heq]
      exact hout
    · rw [hsum2, h4]
      simp only [List.map_cons, List.sum_cons]
      ring

/-- On a valid configuration with non-negative group sizes, the simulator
succeeds (no out-of-range tier access) and its output sums to the workload's
total fraction mass. -/
theorem computeAccessFractions_success (techs : List Tech) (config : Config)
    (workload : Workload) (fractionsOut : List ℚ)
    (htechs : 0 < techs.length) (hlen : techs.length ≤ fractionsOut.length)
    (hsz : ∀ g ∈ workload, 0 ≤ g.size)
    (hv : isValid techs config workload = true) :
    ∃ out, computeAccessFractions techs workload config fractionsOut = some out ∧
      out.length = fractionsOut.length ∧
      out.sum = (workload.map AccessGroup.fraction).sum := by
  obtain ⟨L, hLt, hpop, hcapL⟩ := isValid_lastCap techs config workload htechs hv
  unfold computeAccessFractions
  rw [if_pos htechs]
  obtain ⟨out, hout, hlen2, hsum2⟩ :=
    computeAccessFractionsGo_success techs config L hLt workload 0
      (tierCap techs config 0) (List.replicate fractionsOut.length 0)
      hsz (Nat.zero_le L) hcapL
      (by
        intro heq
        rw [← heq] at hcapL
        exact hcapL)
      (by rw [List.length_replicate]; exact hlen)
  refine ⟨out, hout, by rw [hlen2, List.length_replicate], ?_⟩
  rw [hsum2]
  simp

/-- Each spill-loop step keeps the remaining-capacity counter and every
buffer entry non-negative. -/
theorem placeGroup_nonneg (techs : List Tech) (config : Config)
    (hcaps : ∀ t ∈ techs, 0 ≤ t.capacity) :
    ∀ (fuel : ℕ) (g : AccessGroup) (tech : ℕ) (techCapacity : ℚ)
      (fractionsOut : List ℚ) (tech1 : ℕ) (cap1 : ℚ) (fr1 : List ℚ),
      techs.length - tech ≤ fuel →
      0 ≤ techCapacity → 0 ≤ g.fraction → (∀ x ∈ fractionsOut, 0 ≤ x) →
      placeGroup techs config g tech techCapacity fractionsOut
        = some (tech1, cap1, fr1) →
      0 ≤ cap1 ∧ ∀ x ∈ fr1, 0 ≤ x := by
  intro fuel
  induction fuel with
  | zero =>
    intro g tech techCapacity fractionsOut tech1 cap1 fr1 hfuel hcap hfr hall heq
    rw [placeGroup] at heq
    have htech : ¬ tech < techs.length := by omega
    rw [dif_neg htech] at heq
    exact absurd heq (by simp)
  | succ n ih =>
    intro g tech techCapacity fractionsOut tech1 cap1 fr1 hfuel hcap hfr hall heq
    rw [placeGroup] at heq
    by_cases htech : tech < techs.length
    · rw [dif_pos htech] at heq
      by_cases hover : techCapacity < g.size
      · rw [if_pos hover] at heq
        have hszpos : 0 < g.size := lt_of_le_of_lt hcap hover
        have hfnn : 0 ≤ (techCapacity / g.size) * g.fraction :=
          mul_nonneg (div_nonneg hcap (le_of_lt hszpos)) hfr
        by_cases hnext : tech + 1 < techs.length
        · rw [dif_pos hnext] at heq
          apply ih _ _ _ _ _ _ _ (by omega)
            (tierCap_nonneg techs config hcaps (tech + 1))
            (by
              have hdiv1 : techCapacity / g.size ≤ 1 :=
                (div_le_one hszpos).mpr (le_of_lt hover)
              have : (techCapacity / g.size) * g.fraction ≤ 1 * g.fraction :=
                mul_le_mul_of_nonneg_right hdiv1 hfr
              simp only []
              linarith)
            (by
              intro x hx
              rcases List.mem_or_eq_of_mem_set hx with hmem | hxeq
              · exact hall x hmem
              · rw [hxeq]
                have h0 : 0 ≤ fractionsOut.getD tech 0 := by
                  by_cases htf : tech < fractionsOut.length
                  · rw [List.getD_eq_getElem fractionsOut 0 htf]
                    exact hall _ (List.getElem_mem htf)
                  · rw [List.getD_eq_default fractionsOut 0 (not_lt.mp htf)]
                exact add_nonneg h0 hfnn)
            heq
        · rw [dif_neg hnext] at heq
          exact absurd heq (by simp)
      · rw [if_neg hover] at heq
        simp only [Option.some.injEq, Prod.mk.injEq] at heq
        obtain ⟨-, hc, hf⟩ := heq
        constructor
        · rw [← hc]
          linarith [not_lt.mp hover]
        · rw [← hf]
          intro x hx
          rcases List.mem_or_eq_of_mem_set hx with hmem | hxeq
          · exact hall x hmem
          · rw [hxeq]
            have h0 : 0 ≤ fractionsOut.getD tech 0 := by
              by_cases htf : tech < fractionsOut.length
              · rw [List.getD_eq_getElem fractionsOut 0 htf]
                exact hall _ (List.getElem_mem htf)
              · rw [List.getD_eq_default fractionsOut 0 (not_lt.mp htf)]
            exact add_nonneg h0 hfr
    · rw [dif_neg htech] at heq
      exact absurd heq (by simp)

/-- The group loop keeps capacities and buffer entries non-negative. -/
theorem computeAccessFractionsGo_nonneg (techs : List Tech) (config : Config)
    (hcaps : ∀ t ∈ techs, 0 ≤ t.capacity) :
    ∀ (gs : Workload) (tech : ℕ) (techCapacity : ℚ) (fractionsOut : List ℚ)
      (out : List ℚ),
      (∀ g ∈ gs, 0 ≤ g.fraction) →
      0 ≤ techCapacity → (∀ x ∈ fractionsOut, 0 ≤ x) →
      computeAccessFractionsGo techs config gs tech techCapacity fractionsOut
        = some out →
      ∀ x ∈ out, 0 ≤ x := by
  intro gs
  induction gs with
  | nil =>
    intro tech techCapacity fractionsOut out _ _ hall heq
    rw [computeAccessFractionsGo] at heq
    simp only [Option.some.injEq] at heq
    rw [← heq]
    exact hall
  | cons g rest ih =>
    intro tech techCapacity fractionsOut out hfr hcap hall heq
    rw [computeAccessFractionsGo] at heq
    cases hpg : placeGroup techs config g tech techCapacity fractionsOut with
    | none => rw [hpg] at heq; exact absurd heq (by simp)
    | some r =>
      obtain ⟨tech1, cap1, fr1⟩ := r
      rw [hpg] at heq
      obtain ⟨hc1, hf1⟩ :=
        placeGroup_nonneg techs config hcaps (techs.length - tech) g tech
          techCapacity fractionsOut tech1 cap1 fr1 le_rfl hcap
          (hfr g (List.mem_cons_self g rest)) hall hpg
      exact ih tech1 cap1 fr1 out
        (fun h hm => hfr h (List.mem_cons_of_mem g hm)) hc1 hf1 heq

theorem foldlM_option_inv {α β : Type} (f : β → α → Option β) (P : β → Prop) :
    ∀ (l : List α) (s0 s : β), P s0 →
      (∀ c ∈ l, ∀ t1 t2, P t1 → f t1 c = some t2 → P t2) →
      l.foldlM f s0 = some s → P s := by
  intro l
  induction l with
  | nil =>
    intro s0 s h _ heq
    simp only [List.foldlM_nil, Option.pure_def, Option.some.injEq] at heq
    rwa [← heq]
  | cons c rest ih =>
    intro s0 s h hstep heq
    rw [List.foldlM_cons] at heq
    cases hf : f s0 c with
    | none =>
      rw [hf] at heq
      exact absurd heq (by simp)
    | some s1 =>
      rw [hf] at heq
      simp only [Option.bind_eq_bind, Option.some_bind] at heq
      exact ih s1 s (hstep c (List.mem_cons_self c rest) s0 s1 h hf)
        (fun d hd => hstep d (List.mem_cons_of_mem c hd)) heq

/-- A configuration failing the validity or cost filter leaves the best-so-far
state untouched. -/
theorem evalLeaf_skip (techs : List Tech) (workload : Workload) (costLimit : ℚ)
    (optimizeThroughput : Bool) (s : SearchState) (config : Config)
    (h : ¬ (isValid techs config workload = true ∧ configCost techs config < costLimit)) :
    evalLeaf techs workload costLimit optimizeThroughput s config = some s := by
  unfold evalLeaf
  by_cases hval : isValid techs config workload
  · rw [if_pos hval]
    have hcost : ¬ configCost techs config < costLimit := fun hc => h ⟨hval, hc⟩
    rw [if_neg hcost]
  · rw [if_neg hval]

/-- Every successful leaf evaluation either keeps the state or installs the
evaluated configuration, which then passed both filters. -/
theorem evalLeaf_cases (techs : List Tech) (workload : Workload) (costLimit : ℚ)
    (optimizeThroughput : Bool) (s t : SearchState) (config : Config)
    (heq : evalLeaf techs workload costLimit optimizeThroughput s config = some t) :
    t = s ∨
      (isValid techs config workload = true ∧
        configCost techs config < costLimit ∧
        t.bestConfig = config ∧ t.bestCost = configCost techs config ∧
        ∃ fr, computeAccessFractions techs workload config
            (List.replicate techs.length 0) = some fr ∧
          t.bestFractions = fr ∧
          t.bestTime = timeMetric techs optimizeThroughput fr) := by
  unfold evalLeaf at heq
  by_cases hval : isValid techs config workload
  · rw [if_pos hval] at heq
    by_cases hcost : configCost techs config < costLimit
    · rw [if_pos hcost] at heq
      cases hfr : computeAccessFractions techs workload config
          (List.replicate techs.length 0) with
      | none =>
        rw [hfr] at heq
        exact absurd heq (by simp)
      | some fr =>
        rw [hfr, Option.map_some'] at heq
        simp only [Option.some.injEq] at heq
        by_cases hbetter : timeMetric techs optimizeThroughput fr < s.bestTime ∨
            (timeMetric techs optimizeThroughput fr = s.bestTime ∧
              configCost techs config < s.bestCost)
        · rw [if_pos hbetter] at heq
          right
          refine ⟨hval, hcost, ?_, ?_, fr, rfl, ?_, ?_⟩ <;> rw [← heq]
        · rw [if_neg hbetter] at heq
          left
          exact heq.symm
    · rw [if_neg hcost] at heq
      simp only [Option.some.injEq] at heq
      left
      exact heq.symm
  · rw [if_neg hval] at heq
    simp only [Option.some.injEq] at heq
    left
    exact heq.symm

theorem mem_allConfigs (techs : List Tech) :
    ∀ c : Config, c ∈ allConfigs techs ↔
      (c.length = techs.length ∧
        ∀ i < techs.length, c.getD i 0 < (techs.getD i default).max) := by
  induction techs with
  | nil =>
    intro c
    simp [allConfigs, List.length_eq_zero]
  | cons t ts ih =>
    intro c
    rw [allConfigs]
    simp only [List.mem_flatMap, List.mem_map, List.mem_range]
    constructor
    · rintro ⟨n, hn, rest, hrest, rfl⟩
      obtain ⟨hlen, hbound⟩ := (ih rest).mp hrest
      refine ⟨by simp [hlen], ?_⟩
      intro i hi
      cases i with
      | zero => simpa [List.getD] using hn
      | succ j =>
        have hj : j < ts.length := by simpa using hi
        simpa [List.getD_cons_succ] using hbound j hj
    · rintro ⟨hlen, hbound⟩
      cases c with
      | nil => simp at hlen
      | cons n rest =>
        refine ⟨n, ?_, rest, (ih rest).mpr ⟨by simpa using hlen, ?_⟩, rfl⟩
        · simpa [List.getD] using hbound 0 (by simp)
        · intro j hj
          simpa [List.getD_cons_succ] using hbound (j + 1) (by simpa using Nat.succ_lt_succ hj)

theorem configCost_nonneg (techs : List Tech) (config : Config)
    (hcost : ∀ t ∈ techs, 0 ≤ t.cost) : 0 ≤ configCost techs config := by
  unfold configCost
  apply List.sum_nonneg
  intro x hx
  obtain ⟨i, hi, rfl⟩ := List.mem_map.mp hx
  rw [List.mem_range] at hi
  have hmem : techs.getD i default ∈ techs := by
    rw [List.getD_eq_getElem techs default hi]
    exact List.getElem_mem hi
  exact mul_nonneg (by positivity) (hcost _ hmem)

theorem timeOf_eq_some (techs : List Tech) (workload : Workload)
    (optimizeThroughput : Bool) (c : Config) (fr : List ℚ)
    (hfr : fractionsOf techs workload c = some fr) :
    timeOf techs workload optimizeThroughput c
      = some (timeMetric techs optimizeThroughput fr) := by
  rw [timeOf, hfr, Option.map_some']

theorem updateBest_of_some (techs : List Tech) (workload : Workload)
    (optimizeThroughput : Bool) (s : SearchState) (c : Config) (fr : List ℚ)
    (hfr : fractionsOf techs workload c = some fr) :
    updateBest techs workload optimizeThroughput s c
      = if timeMetric techs optimizeThroughput fr < s.bestTime ∨
            (timeMetric techs optimizeThroughput fr = s.bestTime ∧
              configCost techs c < s.bestCost) then
          { bestCost := configCost techs c
            bestTime := timeMetric techs optimizeThroughput fr
            bestConfig := c
            bestFractions := fr }
        else
          s := by
  rw [updateBest, hfr]

theorem evalLeaf_eq_updateBest (techs : List Tech) (workload : Workload)
    (costLimit : ℚ) (optimizeThroughput : Bool) (s : SearchState) (c : Config)
    (fr : List ℚ) (hval : isValid techs c workload = true)
    (hcost : configCost techs c < costLimit)
    (hfr : fractionsOf techs workload c = some fr) :
    evalLeaf techs workload costLimit optimizeThroughput s c
      = some (updateBest techs workload optimizeThroughput s c) := by
  rw [evalLeaf, if_pos hval, if_pos hcost]
  rw [fractionsOf] at hfr
  rw [hfr, Option.map_some', updateBest_of_some techs workload optimizeThroughput s c fr
    (by rw [fractionsOf]; exact hfr)]

/-- The monadic fold of leaf evaluations over any list of configurations whose
filtered members all simulate successfully equals the pure fold of the
best-so-far update over the filtered list. -/
theorem foldlM_evalLeaf_eq_foldl (techs : List Tech) (workload : Workload)
    (costLimit : ℚ) (optimizeThroughput : Bool) :
    ∀ (l : List Config) (s : SearchState),
      (∀ c ∈ l, passes techs workload costLimit c = true →
        (fractionsOf techs workload c).isSome = true) →
      l.foldlM (evalLeaf techs workload costLimit optimizeThroughput) s
        = some ((l.filter (passes techs workload costLimit)).foldl
            (updateBest techs workload optimizeThroughput) s) := by
  intro l
  induction l with
  | nil =>
    intro s _
    simp [List.foldlM_nil]
  | cons c rest ih =>
    intro s hsome
    rw [List.foldlM_cons]
    cases hp : passes techs workload costLimit c with
    | false =>
      have hskip : evalLeaf techs workload costLimit optimizeThroughput s c = some s := by
        apply evalLeaf_skip
        rintro ⟨hval, hcost⟩
        rw [passes, hval, Bool.true_and] at hp
        exact absurd hcost (of_decide_eq_false hp)
      rw [hskip]
      simp only [Option.bind_eq_bind, Option.some_bind]
      rw [List.filter_cons_of_neg (by rw [hp]; exact Bool.false_ne_true)]
      exact ih s (fun d hd => hsome d (List.mem_cons_of_mem c hd))
    | true =>
      have hps := hsome c (List.mem_cons_self c rest) hp
      obtain ⟨fr, hfr⟩ := Option.isSome_iff_exists.mp hps
      have hpand := hp
      rw [passes, Bool.and_eq_true, decide_eq_true_eq] at hpand
      rw [evalLeaf_eq_updateBest techs workload costLimit optimizeThroughput s c fr
        hpand.1 hpand.2 hfr]
      simp only [Option.bind_eq_bind, Option.some_bind]
      rw [List.filter_cons_of_pos (by rw [hp]), List.foldl_cons]
      exact ih _ (fun d hd => hsome d (List.mem_cons_of_mem c hd))

theorem runningBest_step (techs : List Tech) (workload : Workload)
    (optimizeThroughput : Bool) (p : List Config) (s : SearchState) (c : Config)
    (fr : List ℚ) (hfr : fractionsOf techs workload c = some fr)
    (htlt : timeMetric techs optimizeThroughput fr < floatMax)
    (hinv : (p = [] ∧ s = initState techs) ∨
      RunningBest techs workload optimizeThroughput p s) :
    RunningBest techs workload optimizeThroughput (p ++ [c])
      (updateBest techs workload optimizeThroughput s c) := by
  have htoc := timeOf_eq_some techs workload optimizeThroughput c fr hfr
  rw [updateBest_of_some techs workload optimizeThroughput s c fr hfr]
  rcases hinv with ⟨hp, hs⟩ | ⟨hmin, hfind, htb, hcb⟩
  · subst hp hs
    have hcond : timeMetric techs optimizeThroughput fr < (initState techs).bestTime ∨
        (timeMetric techs optimizeThroughput fr = (initState techs).bestTime ∧
          configCost techs c < (initState techs).bestCost) := Or.inl htlt
    rw [if_pos hcond]
    refine ⟨?_, ?_, htoc, rfl⟩
    · intro d hd tc htc
      rw [List.nil_append, List.mem_singleton] at hd
      subst hd
      rw [htoc] at htc
      right
      exact ⟨(Option.some.injEq _ _ ▸ htc).symm ▸ rfl, le_refl _⟩
    · rw [List.nil_append]
      apply List.find?_cons_of_pos
      rw [decide_eq_true_eq]
      exact ⟨htoc, rfl⟩
  · by_cases hcond : timeMetric techs optimizeThroughput fr < s.bestTime ∨
        (timeMetric techs optimizeThroughput fr = s.bestTime ∧
          configCost techs c < s.bestCost)
    · rw [if_pos hcond]
      have hnomatch : ∀ d ∈ p,
          ¬ (timeOf techs workload optimizeThroughput d
              = some (timeMetric techs optimizeThroughput fr) ∧
            configCost techs d = configCost techs c) := by
        rintro d hd ⟨htd, hcd⟩
        rcases hmin d hd _ htd with hlt | ⟨heq, hle⟩
        · rcases hcond with h | ⟨h, -⟩
          · linarith
          · linarith
        · rcases hcond with h | ⟨h, h2⟩
          · linarith
          · rw [hcd] at hle
            linarith
      refine ⟨?_, ?_, htoc, rfl⟩
      · intro d hd tc htc
        rcases List.mem_append.mp hd with hdp | hdc
        · rcases hmin d hdp tc htc with hlt | ⟨heq, hle⟩
          · rcases hcond with h | ⟨h, -⟩
            · left
              linarith
            · left
              linarith
          · rcases hcond with h | ⟨h, h2⟩
            · left
              linarith
            · right
              constructor
              · linarith
              · have : configCost techs c ≤ s.bestCost := le_of_lt h2
                linarith
        · rw [List.mem_singleton] at hdc
          subst hdc
          rw [htoc] at htc
          right
          refine ⟨(Option.some.injEq _ _ ▸ htc).symm ▸ rfl, le_refl _⟩
      · rw [List.find?_append]
        have hnonep : p.find? (fun d =>
            decide (timeOf techs workload optimizeThroughput d
                = some (timeMetric techs optimizeThroughput fr) ∧
              configCost techs d = configCost techs c)) = none := by
          rw [List.find?_eq_none]
          intro d hd
          rw [decide_eq_true_eq]
          exact hnomatch d hd
        rw [hnonep, Option.none_or]
        apply List.find?_cons_of_pos
        rw [decide_eq_true_eq]
        exact ⟨htoc, rfl⟩
    · rw [if_neg hcond]
      push_neg at hcond
      refine ⟨?_, ?_, htb, hcb⟩
      · intro d hd tc htc
        rcases List.mem_append.mp hd with hdp | hdc
        · exact hmin d hdp tc htc
        · rw [List.mem_singleton] at hdc
          subst hdc
          rw [htoc] at htc
          have htceq : tc = timeMetric techs optimizeThroughput fr :=
            (Option.some.injEq _ _ ▸ htc).symm
          subst htceq
          rcases lt_or_eq_of_le hcond.1 with h | h
          · left
            exact h
          · right
            exact ⟨h, hcond.2 h.symm⟩
      · rw [List.find?_append, hfind]
        rfl

theorem foldl_updateBest_running (techs : List Tech) (workload : Workload)
    (optimizeThroughput : Bool) :
    ∀ (l p : List Config) (s : SearchState),
      (∀ c ∈ l, ∀ tc, timeOf techs workload optimizeThroughput c = some tc →
        tc < floatMax) →
      (∀ c ∈ l, (fractionsOf techs workload c).isSome = true) →
      ((p = [] ∧ s = initState techs) ∨
        RunningBest techs workload optimizeThroughput p s) →
      ((p ++ l = [] ∧
          l.foldl (updateBest techs workload optimizeThroughput) s = s) ∨
        RunningBest techs workload optimizeThroughput (p ++ l)
          (l.foldl (updateBest techs workload optimizeThroughput) s)) := by
  intro l
  induction l with
  | nil =>
    intro p s _ _ hinv
    rcases hinv with ⟨hp, hs⟩ | hrb
    · left
      rw [hp]
      exact ⟨rfl, rfl⟩
    · right
      rw [List.append_nil]
      exact hrb
  | cons c rest ih =>
    intro p s htlt hsome hinv
    obtain ⟨fr, hfr⟩ := Option.isSome_iff_exists.mp
      (hsome c (List.mem_cons_self c rest))
    have htfr : timeMetric techs optimizeThroughput fr < floatMax :=
      htlt c (List.mem_cons_self c rest) _
        (timeOf_eq_some techs workload optimizeThroughput c fr hfr)
    have hstep := runningBest_step techs workload optimizeThroughput p s c fr
      hfr htfr hinv
    have hres := ih (p ++ [c]) (updateBest techs workload optimizeThroughput s c)
      (fun d hd => htlt d (List.mem_cons_of_mem c hd))
      (fun d hd => hsome d (List.mem_cons_of_mem c hd))
      (Or.inr hstep)
    rw [List.foldl_cons]
    rcases hres with ⟨habs, -⟩ | hrb
    · exact absurd habs (by simp)
    · right
      rwa [List.append_assoc, List.singleton_append] at hrb

theorem foldlM_skip_all {α β : Type} (f : β → α → Option β) :
    ∀ (l : List α), (∀ c ∈ l, ∀ s : β, f s c = some s) →
      ∀ s0 : β, l.foldlM f s0 = some s0 := by
  intro l
  induction l with
  | nil =>
    intro _ s0
    simp [List.foldlM_nil]
  | cons c rest ih =>
    intro h s0
    rw [List.foldlM_cons, h c (List.mem_cons_self c rest) s0]
    simp only [Option.bind_eq_bind, Option.some_bind]
    exact ih (fun d hd => h d (List.mem_cons_of_mem c hd)) s0

/-- Controlled unfolding of the spill loop when the group fits the current
tier. -/
theorem placeGroup_fit (techs : List Tech) (config : Config) (g : AccessGroup)
    (tech : ℕ) (techCapacity : ℚ) (fractionsOut : List ℚ)
    (h1 : tech < techs.length) (h2 : ¬ techCapacity < g.size) :
    placeGroup techs config g tech techCapacity fractionsOut
      = some (tech, techCapacity - g.size,
          fractionsOut.set tech (fractionsOut.getD tech 0 + g.fraction)) := by
  rw [placeGroup, dif_pos h1, if_neg h2]

/-- Controlled unfolding of the group loop given the spill loop's result. -/
theorem computeAccessFractionsGo_cons (techs : List Tech) (config : Config)
    (g : AccessGroup) (gs : Workload) (tech : ℕ) (techCapacity : ℚ)
    (fractionsOut : List ℚ) (tech1 : ℕ) (cap1 : ℚ) (fr1 : List ℚ)
    (h : placeGroup techs config g tech techCapacity fractionsOut
      = some (tech1, cap1, fr1)) :
    computeAccessFractionsGo techs config (g :: gs) tech techCapacity fractionsOut
      = computeAccessFractionsGo techs config gs tech1 cap1 fr1 := by
  rw [computeAccessFractionsGo, h]

/-- With a zero cost budget and non-negative tier prices no configuration
passes the cost filter, so the search returns its initial state. -/
theorem findBestConfig_zero_budget (techs : List Tech) (workload : Workload)
    (optimizeThroughput : Bool) (hcost : ∀ t ∈ techs, 0 ≤ t.cost) :
    findBestConfig techs workload 0 optimizeThroughput = some (initState techs) := by
  unfold findBestConfig
  apply foldlM_skip_all
  intro c _ s
  apply evalLeaf_skip
  rintro ⟨-, hlt⟩
  exact absurd hlt (not_lt.mpr (configCost_nonneg techs c hcost))

theorem techs_cost_nonneg : ∀ t ∈ techs, 0 ≤ t.cost := by
  intro t ht
  fin_cases ht <;> norm_num [techs]

/-! ## Claims -/

/-- C5: for every configuration and workload, `isValid` returns `true` exactly
when `config[0]` is nonzero, no populated tier's total capacity is strictly
less than the previous populated tier's total capacity (in tier order), and
the last populated tier's total capacity is not strictly less than the sum of
all group sizes.  `isValid` is a total Lean function into `Bool`, hence
deterministic and defined on every input (in particular on every non-empty
workload). -/
theorem c5_isValid_characterization (techs : List Tech) (config : Config)
    (workload : Workload) :
    isValid techs config workload = true ↔ isValidSpec techs config workload :=
  isValid_iff_spec techs config workload

/-- C9: the simulator is deterministic and carries no state across calls: its
result depends on the output buffer only through the buffer's length (the
buffer is zero-filled before accumulation), so a second invocation reusing a
buffer with arbitrary prior contents produces the identical fraction vector.
As a pure function of its arguments it has no side effects on the workload or
configuration and always returns the same output for the same inputs. -/
theorem c9_simulator_stateless (techs : List Tech) (workload : Workload)
    (config : Config) (buf1 buf2 : List ℚ) (hlen : buf1.length = buf2.length) :
    computeAccessFractions techs workload config buf1
      = computeAccessFractions techs workload config buf2 := by
  unfold computeAccessFractions
  rw [hlen]

theorem c9_simulator_stateless_witness :
    computeAccessFractions techs [⟨1, 1⟩] [1, 0, 0, 0] [5, 6, 7, 8]
      = computeAccessFractions techs [⟨1, 1⟩] [1, 0, 0, 0] [0, 0, 0, 0] :=
  c9_simulator_stateless techs [⟨1, 1⟩] [1, 0, 0, 0] [5, 6, 7, 8] [0, 0, 0, 0] rfl

/-- C3: mass conservation.  For every configuration accepted by `isValid` for
a workload (with the data model's non-negative group sizes) the simulator
succeeds and the sum of the output fractions equals the sum of the fraction
fields of the workload's access groups — exactly, since the embedding
computes in `ℚ`. -/
theorem c3_mass_conservation (techs : List Tech) (config : Config)
    (workload : Workload) (fractionsOut : List ℚ)
    (htechs : 0 < techs.length) (hlen : techs.length ≤ fractionsOut.length)
    (hsz : ∀ g ∈ workload, 0 ≤ g.size)
    (hv : isValid techs config workload = true) :
    (computeAccessFractions techs workload config fractionsOut).map List.sum
      = some ((workload.map AccessGroup.fraction).sum) := by
  obtain ⟨out, hout, -, hsum⟩ := computeAccessFractions_success techs config
    workload fractionsOut htechs hlen hsz hv
  rw [hout, Option.map_some', hsum]

theorem c3_mass_conservation_witness :
    (computeAccessFractions techs [⟨1, 1⟩] [1, 0, 0, 0] [0, 0, 0, 0]).map List.sum
      = some (([⟨1, 1⟩] : Workload).map AccessGroup.fraction).sum :=
  c3_mass_conservation techs [1, 0, 0, 0] [⟨1, 1⟩] [0, 0, 0, 0]
    (by norm_num [techs]) (by norm_num [techs])
    (by
      intro g hg
      rw [List.mem_singleton] at hg
      subst hg
      norm_num)
    (by norm_num [isValid, indexes, tierCap, techs, GB, MB, TB, sumSpaceNeeded,
      inclusiveChainOk, List.range_succ])

/-- C7: on a workload with non-negative group sizes and a configuration
accepted by `isValid`, the simulator terminates with a result (it is a total
Lean function) and its tier index never runs past the catalog: the `none`
value, which models any out-of-range access to `techs`, `config`, or the
output buffer, does not occur. -/
theorem c7_simulator_in_bounds (techs : List Tech) (config : Config)
    (workload : Workload) (fractionsOut : List ℚ)
    (htechs : 0 < techs.length) (hlen : techs.length ≤ fractionsOut.length)
    (hsz : ∀ g ∈ workload, 0 ≤ g.size)
    (hv : isValid techs config workload = true) :
    (computeAccessFractions techs workload config fractionsOut).isSome = true := by
  obtain ⟨out, hout, -, -⟩ := computeAccessFractions_success techs config
    workload fractionsOut htechs hlen hsz hv
  rw [hout]
  rfl

theorem c7_simulator_in_bounds_witness :
    (computeAccessFractions techs [⟨1, 1⟩] [1, 0, 0, 0] [0, 0, 0, 0]).isSome = true :=
  c7_simulator_in_bounds techs [1, 0, 0, 0] [⟨1, 1⟩] [0, 0, 0, 0]
    (by norm_num [techs]) (by norm_num [techs])
    (by
      intro g hg
      rw [List.mem_singleton] at hg
      subst hg
      norm_num)
    (by norm_num [isValid, indexes, tierCap, techs, GB, MB, TB, sumSpaceNeeded,
      inclusiveChainOk, List.range_succ])

/-- C10: with non-negative group fractions and sizes (and the catalog's
non-negative capacities), every spill-loop step started from a non-negative
remaining-capacity counter returns a non-negative counter, and consequently
every entry of a successfully computed output fraction vector is
non-negative. -/
theorem c10_fractions_nonneg (techs : List Tech) (config : Config)
    (workload : Workload) (fractionsOut out : List ℚ)
    (hcaps : ∀ t ∈ techs, 0 ≤ t.capacity)
    (hfrs : ∀ g ∈ workload, 0 ≤ g.fraction)
    (hsz : ∀ g ∈ workload, 0 ≤ g.size)
    (hrun : computeAccessFractions techs workload config fractionsOut = some out) :
    (∀ (g : AccessGroup) (tech : ℕ) (techCapacity : ℚ) (buf : List ℚ)
        (tech1 : ℕ) (cap1 : ℚ) (fr1 : List ℚ),
      0 ≤ techCapacity → 0 ≤ g.fraction → (∀ x ∈ buf, 0 ≤ x) →
      placeGroup techs config g tech techCapacity buf = some (tech1, cap1, fr1) →
      0 ≤ cap1 ∧ ∀ x ∈ fr1, 0 ≤ x) ∧
    (∀ x ∈ out, 0 ≤ x) := by
  constructor
  · intro g tech techCapacity buf tech1 cap1 fr1 hcap hfr hall heq
    exact placeGroup_nonneg techs config hcaps (techs.length - tech) g tech
      techCapacity buf tech1 cap1 fr1 le_rfl hcap hfr hall heq
  · rw [computeAccessFractions] at hrun
    by_cases htechs : 0 < techs.length
    · rw [if_pos htechs] at hrun
      apply computeAccessFractionsGo_nonneg techs config hcaps workload 0
        (tierCap techs config 0) (List.replicate fractionsOut.length 0) out
        hfrs (tierCap_nonneg techs config hcaps 0) ?_ hrun
      intro x hx
      rw [List.eq_of_mem_replicate hx]
    · rw [if_neg htechs] at hrun
      exact absurd hrun (by simp)

theorem c10_fractions_nonneg_witness :
    (∀ (g : AccessGroup) (tech : ℕ) (techCapacity : ℚ) (buf : List ℚ)
        (tech1 : ℕ) (cap1 : ℚ) (fr1 : List ℚ),
      0 ≤ techCapacity → 0 ≤ g.fraction → (∀ x ∈ buf, 0 ≤ x) →
      placeGroup demoTechs [1] g tech techCapacity buf = some (tech1, cap1, fr1) →
      0 ≤ cap1 ∧ ∀ x ∈ fr1, 0 ≤ x) ∧
    (∀ x ∈ [(1 : ℚ)], 0 ≤ x) :=
  c10_fractions_nonneg demoTechs [1] [⟨1, 10⟩] [0] [1]
    (by
      intro t ht
      fin_cases ht <;> norm_num [demoTechs])
    (by
      intro g hg
      rw [List.mem_singleton] at hg
      subst hg
      norm_num)
    (by
      intro g hg
      rw [List.mem_singleton] at hg
      subst hg
      norm_num)
    (by
      rw [computeAccessFractions, if_pos (by norm_num [demoTechs])]
      rw [computeAccessFractionsGo_cons demoTechs [1] ⟨1, 10⟩ [] 0 _ _ 0 _ _
        (placeGroup_fit demoTechs [1] ⟨1, 10⟩ 0 _ _ (by norm_num [demoTechs])
          (by norm_num [tierCap, demoTechs]))]
      rw [computeAccessFractionsGo]
      norm_num [List.set, List.getD, tierCap, demoTechs])

/-- C1 counterexample: with the source's catalog, workload `[{1, 1}]` and cost
limit `0`, no configuration passes the strict cost filter, so `findBestConfig`
returns the all-zero initial configuration — which fails `isValid`.  The claim
as stated ("for every workload and cost limit the returned configuration
satisfies `isValid` and costs strictly less than the limit") is therefore
false. -/
theorem c1_counterexample :
    ∃ s, findBestConfig techs [⟨1, 1⟩] 0 true = some s ∧
      isValid techs s.bestConfig [⟨1, 1⟩] = false := by
  refine ⟨initState techs, findBestConfig_zero_budget techs [⟨1, 1⟩] true
    techs_cost_nonneg, ?_⟩
  rfl

/-- C1 (amended): whenever `findBestConfig` returns, the result is either the
untouched initial state (the all-zero configuration with sentinel cost and
time, meaning no enumerated configuration passed both filters) or a
configuration that satisfies `isValid` for the workload and has cost strictly
below the cost limit. -/
theorem c1_result_valid_under_budget (techs : List Tech) (workload : Workload)
    (costLimit : ℚ) (optimizeThroughput : Bool) (s : SearchState)
    (hres : findBestConfig techs workload costLimit optimizeThroughput = some s) :
    s = initState techs ∨
      (isValid techs s.bestConfig workload = true ∧
        configCost techs s.bestConfig < costLimit) := by
  rw [findBestConfig] at hres
  apply foldlM_option_inv (evalLeaf techs workload costLimit optimizeThroughput)
    (fun t => t = initState techs ∨
      (isValid techs t.bestConfig workload = true ∧
        configCost techs t.bestConfig < costLimit))
    (allConfigs techs) (initState techs) s (Or.inl rfl) ?_ hres
  intro c _ t1 t2 hP heq
  rcases evalLeaf_cases techs workload costLimit optimizeThroughput t1 t2 c heq with
    heq2 | ⟨hval, hcost, hbc, -, -⟩
  · rw [heq2]
    exact hP
  · right
    rw [hbc]
    exact ⟨hval, hcost⟩

theorem c1_result_valid_under_budget_witness :
    (findBestConfig techs [⟨1, 1⟩] 0 true = some (initState techs)) ∧
    (initState techs = initState techs ∨
      (isValid techs (initState techs).bestConfig [⟨1, 1⟩] = true ∧
        configCost techs (initState techs).bestConfig < 0)) :=
  ⟨findBestConfig_zero_budget techs [⟨1, 1⟩] true techs_cost_nonneg,
    c1_result_valid_under_budget techs [⟨1, 1⟩] 0 true (initState techs)
      (findBestConfig_zero_budget techs [⟨1, 1⟩] true techs_cost_nonneg)⟩

/-- C2 counterexample: with the source's catalog and the workload `[{1, 1}]`,
the configuration `[2, 1, 0, 0]` is feasible (RAM 128 GB ≤ NVM 256 GB), but
raising only the RAM count — increasing a tier and decreasing none — to
`[8, 1, 0, 0]` makes RAM's 512 GB exceed NVM's 256 GB, violating the
inclusive-capacity check, so `isValid` rejects it.  The claimed monotonicity
is therefore false. -/
theorem c2_counterexample :
    isValid techs [2, 1, 0, 0] [⟨1, 1⟩] = true ∧
    List.Forall₂ (· ≤ ·) [2, 1, 0, 0] [8, 1, 0, 0] ∧
    isValid techs [8, 1, 0, 0] [⟨1, 1⟩] = false := by
  refine ⟨?_, ?_, ?_⟩
  · norm_num [isValid, indexes, tierCap, techs, GB, MB, TB, sumSpaceNeeded,
      inclusiveChainOk, List.range_succ]
  · norm_num
  · norm_num [isValid, indexes, tierCap, techs, GB, MB, TB, sumSpaceNeeded,
      inclusiveChainOk, List.range_succ]

/-- C2 (amended): feasibility is preserved when the device count of the LAST
populated tier is increased (and no other tier changes), for a catalog with
non-negative capacities.  The original claim — any tier may be increased — is
refuted by `isValid`'s inclusive-capacity check (see the counterexample):
increasing an earlier populated tier can make its capacity exceed the next
populated tier's. -/
theorem c2_feasibility_monotone_last_tier (techs : List Tech) (config : Config)
    (workload : Workload) (hcaps : ∀ t ∈ techs, 0 ≤ t.capacity) (L k : ℕ)
    (hL : L ∈ indexes techs config) (hmax : ∀ t ∈ indexes techs config, t ≤ L)
    (hv : isValid techs config workload = true) :
    isValid techs (config.set L (config.getD L 0 + k)) workload = true :=
  isValid_bump_last techs config workload hcaps L k hL hmax hv

theorem c2_feasibility_monotone_last_tier_witness :
    isValid techs ([2, 1, 0, 0].set 1 ([2, 1, 0, 0].getD 1 0 + 5)) [⟨1, 1⟩] = true :=
  c2_feasibility_monotone_last_tier techs [2, 1, 0, 0] [⟨1, 1⟩]
    (by
      intro t ht
      fin_cases ht <;> norm_num [techs, GB, MB, TB])
    1 5
    (by norm_num [indexes, techs, List.range_succ])
    (by
      intro t ht
      norm_num [indexes, techs, List.range_succ] at ht
      omega)
    (by norm_num [isValid, indexes, tierCap, techs, GB, MB, TB, sumSpaceNeeded,
      inclusiveChainOk, List.range_succ])

/-- C4: if no enumerated configuration is both feasible and strictly under
the cost limit, the search returns its initial state: the all-zero
configuration with the best time still at the no-solution sentinel
(`numeric_limits<float>::max()`, the value the spec calls +infinity) — never
a false-positive feasible answer. -/
theorem c4_no_feasible_gives_sentinel (techs : List Tech) (workload : Workload)
    (costLimit : ℚ) (optimizeThroughput : Bool)
    (hnone : ∀ c ∈ allConfigs techs,
      ¬ (isValid techs c workload = true ∧ configCost techs c < costLimit)) :
    findBestConfig techs workload costLimit optimizeThroughput
        = some (initState techs) ∧
    (initState techs).bestConfig = List.replicate techs.length 0 ∧
    (initState techs).bestTime = floatMax := by
  refine ⟨?_, rfl, rfl⟩
  rw [findBestConfig]
  apply foldlM_skip_all
  intro c hc s
  exact evalLeaf_skip techs workload costLimit optimizeThroughput s c (hnone c hc)

theorem c4_no_feasible_gives_sentinel_witness :
    (∀ c ∈ allConfigs techs,
      ¬ (isValid techs c [⟨1, 1⟩] = true ∧ configCost techs c < 0)) ∧
    (findBestConfig techs [⟨1, 1⟩] 0 true = some (initState techs) ∧
      (initState techs).bestConfig = List.replicate techs.length 0 ∧
      (initState techs).bestTime = floatMax) := by
  have hnone : ∀ c ∈ allConfigs techs,
      ¬ (isValid techs c [⟨1, 1⟩] = true ∧ configCost techs c < 0) := by
    rintro c _ ⟨-, hlt⟩
    exact absurd hlt (not_lt.mpr (configCost_nonneg techs c techs_cost_nonneg))
  exact ⟨hnone, c4_no_feasible_gives_sentinel techs [⟨1, 1⟩] 0 true hnone⟩

/-- C8: every configuration visited by the enumeration keeps each tier's
device count in `[0, techs[t].max)`, and (for a catalog with positive device
caps, as the source's is) so does the configuration returned by the search,
whether it is the all-zero initial one or an enumerated one. -/
theorem c8_counts_below_caps (techs : List Tech) (workload : Workload)
    (costLimit : ℚ) (optimizeThroughput : Bool) (s : SearchState)
    (hpos : ∀ t ∈ techs, 0 < t.max)
    (hres : findBestConfig techs workload costLimit optimizeThroughput = some s) :
    (∀ c ∈ allConfigs techs, ∀ i < techs.length,
      c.getD i 0 < (techs.getD i default).max) ∧
    (∀ i < techs.length, s.bestConfig.getD i 0 < (techs.getD i default).max) := by
  have hmem : ∀ c ∈ allConfigs techs, ∀ i < techs.length,
      c.getD i 0 < (techs.getD i default).max :=
    fun c hc => ((mem_allConfigs techs c).mp hc).2
  refine ⟨hmem, ?_⟩
  rw [findBestConfig] at hres
  apply foldlM_option_inv (evalLeaf techs workload costLimit optimizeThroughput)
    (fun t => ∀ i < techs.length, t.bestConfig.getD i 0 < (techs.getD i default).max)
    (allConfigs techs) (initState techs) s ?_ ?_ hres
  · intro i hi
    have hmemi : techs.getD i default ∈ techs := by
      rw [List.getD_eq_getElem techs default hi]
      exact List.getElem_mem hi
    have hb : (initState techs).bestConfig = List.replicate techs.length 0 := rfl
    have hz : List.getD (List.replicate techs.length 0) i 0 = 0 := by
      rw [List.getD_eq_getElem _ 0 (by simpa using hi)]
      simp
    rw [hb, hz]
    exact hpos _ hmemi
  · intro c hc t1 t2 hP heq
    rcases evalLeaf_cases techs workload costLimit optimizeThroughput t1 t2 c heq with
      heq2 | ⟨-, -, hbc, -, -⟩
    · rw [heq2]
      exact hP
    · rw [hbc]
      exact ((mem_allConfigs techs c).mp hc).2

theorem c8_counts_below_caps_witness :
    ((∀ t ∈ techs, 0 < t.max) ∧
      findBestConfig techs [⟨1, 1⟩] 0 true = some (initState techs)) ∧
    ((∀ c ∈ allConfigs techs, ∀ i < techs.length,
        c.getD i 0 < (techs.getD i default).max) ∧
      (∀ i < techs.length,
        (initState techs).bestConfig.getD i 0 < (techs.getD i default).max)) := by
  have hpos : ∀ t ∈ techs, 0 < t.max := by
    intro t ht
    fin_cases ht <;> norm_num [techs]
  have hres : findBestConfig techs [⟨1, 1⟩] 0 true = some (initState techs) :=
    findBestConfig_zero_budget techs [⟨1, 1⟩] true techs_cost_nonneg
  exact ⟨⟨hpos, hres⟩,
    c8_counts_below_caps techs [⟨1, 1⟩] 0 true (initState techs) hpos hres⟩

theorem sum_range_getD (l : List ℚ) :
    ((List.range l.length).map (fun i => l.getD i 0)).sum = l.sum := by
  induction l with
  | nil => rfl
  | cons a rest ih =>
    rw [List.length_cons, List.range_succ_eq_map, List.map_cons, List.map_map,
      List.sum_cons]
    have hcomp : (List.range rest.length).map
          ((fun i => (a :: rest).getD i 0) ∘ Nat.succ)
        = (List.range rest.length).map (fun i => rest.getD i 0) := by
      apply List.map_congr_left
      intro i _
      simp [Function.comp, List.getD_cons_succ]
    rw [hcomp, ih]
    simp [List.getD]

/-- Both time metrics are bounded by the fraction mass times any common bound
`W` on the per-tier weights (`1/IOs` for throughput, `latency` for latency). -/
theorem timeMetric_le_sum_mul (techs : List Tech) (optimizeThroughput : Bool)
    (fr : List ℚ) (W : ℚ) (hnn : ∀ x ∈ fr, 0 ≤ x)
    (hW : ∀ t ∈ techs, 1 / t.IOs ≤ W ∧ t.latency ≤ W)
    (hlen : fr.length ≤ techs.length) :
    timeMetric techs optimizeThroughput fr ≤ fr.sum * W := by
  have hgetnn : ∀ i, 0 ≤ fr.getD i 0 := by
    intro i
    by_cases hi : i < fr.length
    · rw [List.getD_eq_getElem fr 0 hi]
      exact hnn _ (List.getElem_mem hi)
    · rw [List.getD_eq_default fr 0 (not_lt.mp hi)]
  have hmem : ∀ i ∈ List.range fr.length, techs.getD i default ∈ techs := by
    intro i hi
    rw [List.mem_range] at hi
    rw [List.getD_eq_getElem techs default (lt_of_lt_of_le hi hlen)]
    exact List.getElem_mem _
  rw [timeMetric]
  cases optimizeThroughput with
  | true =>
    rw [if_pos rfl, avgTimePerAccess]
    calc ((List.range fr.length).map
          (fun i => fr.getD i 0 * (1 / (techs.getD i default).IOs))).sum
        ≤ ((List.range fr.length).map (fun i => fr.getD i 0 * W)).sum := by
          apply List.sum_le_sum
          intro i hi
          exact mul_le_mul_of_nonneg_left (hW _ (hmem i hi)).1 (hgetnn i)
      _ = fr.sum * W := by rw [List.sum_map_mul_right, sum_range_getD]
  | false =>
    rw [if_neg (by exact fun h => Bool.false_ne_true h), avgLatencyPerAccess]
    calc ((List.range fr.length).map
          (fun i => fr.getD i 0 * (techs.getD i default).latency)).sum
        ≤ ((List.range fr.length).map (fun i => fr.getD i 0 * W)).sum := by
          apply List.sum_le_sum
          intro i hi
          exact mul_le_mul_of_nonneg_left (hW _ (hmem i hi)).2 (hgetnn i)
      _ = fr.sum * W := by rw [List.sum_map_mul_right, sum_range_getD]

/-- With every group fraction at most `1`, the workload's fraction mass is at
most the number of groups. -/
theorem sum_map_fraction_le_length (workload : Workload)
    (h : ∀ g ∈ workload, g.fraction ≤ 1) :
    (workload.map AccessGroup.fraction).sum ≤ (workload.length : ℚ) := by
  have hb := List.sum_le_card_nsmul (workload.map AccessGroup.fraction) 1 ?_
  · rw [List.length_map, nsmul_eq_mul, mul_one] at hb
    exact hb
  · intro x hx
    obtain ⟨g, hg, rfl⟩ := List.mem_map.mp hx
    exact h g hg

/-- A successful simulator run on non-negative fractions and capacities
produces only non-negative entries. -/
theorem computeAccessFractions_nonneg (techs : List Tech) (config : Config)
    (workload : Workload) (fractionsOut out : List ℚ)
    (hcaps : ∀ t ∈ techs, 0 ≤ t.capacity)
    (hfrs : ∀ g ∈ workload, 0 ≤ g.fraction)
    (hrun : computeAccessFractions techs workload config fractionsOut = some out) :
    ∀ x ∈ out, 0 ≤ x := by
  rw [computeAccessFractions] at hrun
  by_cases htechs : 0 < techs.length
  · rw [if_pos htechs] at hrun
    apply computeAccessFractionsGo_nonneg techs config hcaps workload 0
      (tierCap techs config 0) (List.replicate fractionsOut.length 0) out
      hfrs (tierCap_nonneg techs config hcaps 0) ?_ hrun
    intro x hx
    rw [List.eq_of_mem_replicate hx]
  · rw [if_neg htechs] at hrun
    exact absurd hrun (by simp)

/-- C6: among the enumerated configurations that are valid and strictly under
the cost limit (the `candidates`, listed in enumeration order), the search
returns one minimizing the selected time metric; at exactly equal time the
strictly cheaper one wins, and at equal time and equal cost the first one in
enumeration order is kept — the result is the first candidate achieving the
returned (time, cost) pair.  Every hypothesis is a fact of the program or its
data model: group fractions lie in `[0, 1]` and sizes are non-negative (spec
data model), `W` bounds the catalog's per-tier time weights together with a
non-negative capacity column (for the source catalog `W = 1/100`: all IOPS are
at least 100 and all latencies at most 10 ms), and
`workload.length * W < floatMax` holds for every workload the program can hold
in memory (a `std::vector` has fewer than `2^64` elements, and
`2^64 / 100 ≪ 2^128 - 2^104`).  From these the proof derives that every
candidate's computed time is strictly below the `numeric_limits<float>::max()`
value the best-time slot starts at — as in every real execution, where
computed float times are finite — so the first passing candidate always
displaces the initial state and the selection argument applies to the whole
candidate list. -/
theorem c6_search_optimality (techs : List Tech) (workload : Workload)
    (costLimit : ℚ) (optimizeThroughput : Bool) (s : SearchState) (W : ℚ)
    (htechs : 0 < techs.length)
    (hcaps : ∀ t ∈ techs, 0 ≤ t.capacity)
    (hfr : ∀ g ∈ workload, 0 ≤ g.fraction ∧ g.fraction ≤ 1)
    (hsz : ∀ g ∈ workload, 0 ≤ g.size)
    (hW0 : 0 ≤ W)
    (hW : ∀ t ∈ techs, 1 / t.IOs ≤ W ∧ t.latency ≤ W)
    (hmass : (workload.length : ℚ) * W < floatMax)
    (hne : candidates techs workload costLimit ≠ [])
    (hres : findBestConfig techs workload costLimit optimizeThroughput = some s) :
    s.bestConfig ∈ candidates techs workload costLimit ∧
    timeOf techs workload optimizeThroughput s.bestConfig = some s.bestTime ∧
    configCost techs s.bestConfig = s.bestCost ∧
    (∀ c ∈ candidates techs workload costLimit, ∀ tc,
      timeOf techs workload optimizeThroughput c = some tc →
      s.bestTime < tc ∨ (s.bestTime = tc ∧ s.bestCost ≤ configCost techs c)) ∧
    (candidates techs workload costLimit).find?
      (fun c => decide (timeOf techs workload optimizeThroughput c = some s.bestTime ∧
        configCost techs c = s.bestCost)) = some s.bestConfig := by
  have hsome_all : ∀ c ∈ allConfigs techs,
      passes techs workload costLimit c = true →
      (fractionsOf techs workload c).isSome = true := by
    intro c _ hp
    rw [passes, Bool.and_eq_true] at hp
    obtain ⟨out, hout, -, -⟩ := computeAccessFractions_success techs c workload
      (List.replicate techs.length 0) htechs
      (by rw [List.length_replicate]) hsz hp.1
    rw [fractionsOf, hout]
    rfl
  rw [findBestConfig, foldlM_evalLeaf_eq_foldl techs workload costLimit
    optimizeThroughput (allConfigs techs) (initState techs) hsome_all] at hres
  simp only [Option.some.injEq] at hres
  have hsome_cand : ∀ c ∈ candidates techs workload costLimit,
      (fractionsOf techs workload c).isSome = true := by
    intro c hc
    rw [candidates, List.mem_filter] at hc
    exact hsome_all c hc.1 hc.2
  have htlt : ∀ c ∈ candidates techs workload costLimit, ∀ tc,
      timeOf techs workload optimizeThroughput c = some tc → tc < floatMax := by
    intro c hc tc htc
    rw [candidates, List.mem_filter, passes, Bool.and_eq_true] at hc
    obtain ⟨out, hout, holen, hosum⟩ := computeAccessFractions_success techs c
      workload (List.replicate techs.length 0) htechs
      (by rw [List.length_replicate]) hsz hc.2.1
    rw [timeOf, fractionsOf, hout, Option.map_some', Option.some.injEq] at htc
    have hnn : ∀ x ∈ out, 0 ≤ x :=
      computeAccessFractions_nonneg techs c workload
        (List.replicate techs.length 0) out hcaps (fun g hg => (hfr g hg).1) hout
    have hb := timeMetric_le_sum_mul techs optimizeThroughput out W hnn hW
      (le_of_eq (by rw [holen, List.length_replicate]))
    have hm : out.sum ≤ (workload.length : ℚ) := by
      rw [hosum]
      exact sum_map_fraction_le_length workload (fun g hg => (hfr g hg).2)
    calc tc = timeMetric techs optimizeThroughput out := htc.symm
      _ ≤ out.sum * W := hb
      _ ≤ (workload.length : ℚ) * W := mul_le_mul_of_nonneg_right hm hW0
      _ < floatMax := hmass
  have hrun := foldl_updateBest_running techs workload optimizeThroughput
    (candidates techs workload costLimit) [] (initState techs)
    htlt hsome_cand (Or.inl ⟨rfl, rfl⟩)
  rw [List.nil_append] at hrun
  rcases hrun with ⟨habs, -⟩ | hrb
  · exact absurd habs hne
  · have hres2 : List.foldl (updateBest techs workload optimizeThroughput)
        (initState techs) (candidates techs workload costLimit) = s := hres
    rw [hres2] at hrb
    obtain ⟨hmin, hfind, htb, hcb⟩ := hrb
    exact ⟨List.mem_of_find?_eq_some hfind, htb, hcb, hmin, hfind⟩

theorem c6_search_optimality_witness :
    [1] ∈ candidates demoTechs [⟨1, 10⟩] 100 ∧
    timeOf demoTechs [⟨1, 10⟩] true [1] = some 1 ∧
    configCost demoTechs [1] = 5 ∧
    (∀ c ∈ candidates demoTechs [⟨1, 10⟩] 100, ∀ tc,
      timeOf demoTechs [⟨1, 10⟩] true c = some tc →
      (1 : ℚ) < tc ∨ ((1 : ℚ) = tc ∧ (5 : ℚ) ≤ configCost demoTechs c)) ∧
    (candidates demoTechs [⟨1, 10⟩] 100).find?
      (fun c => decide (timeOf demoTechs [⟨1, 10⟩] true c = some 1 ∧
        configCost demoTechs c = 5)) = some [1] := by
  have hv0 : isValid demoTechs [0] [⟨1, 10⟩] = false := rfl
  have hv1 : isValid demoTechs [1] [⟨1, 10⟩] = true := by
    norm_num [isValid, indexes, tierCap, demoTechs, sumSpaceNeeded,
      inclusiveChainOk, List.range_succ]
  have hv2 : isValid demoTechs [2] [⟨1, 10⟩] = true := by
    norm_num [isValid, indexes, tierCap, demoTechs, sumSpaceNeeded,
      inclusiveChainOk, List.range_succ]
  have hc1 : configCost demoTechs [1] = 5 := by
    norm_num [configCost, demoTechs, List.range_succ, List.getD]
  have hc2 : configCost demoTechs [2] = 10 := by
    norm_num [configCost, demoTechs, List.range_succ, List.getD]
  have hbuf : List.replicate demoTechs.length (0 : ℚ) = [0] := rfl
  have hcf1 : computeAccessFractions demoTechs [⟨1, 10⟩] [1]
      (List.replicate demoTechs.length 0) = some [1] := by
    rw [hbuf, computeAccessFractions, if_pos (by norm_num [demoTechs])]
    rw [computeAccessFractionsGo_cons demoTechs [1] ⟨1, 10⟩ [] 0 _ _ 0 _ _
      (placeGroup_fit demoTechs [1] ⟨1, 10⟩ 0 _ _ (by norm_num [demoTechs])
        (by norm_num [tierCap, demoTechs, List.getD]))]
    rw [computeAccessFractionsGo]
    norm_num [List.set, List.getD]
  have hcf2 : computeAccessFractions demoTechs [⟨1, 10⟩] [2]
      (List.replicate demoTechs.length 0) = some [1] := by
    rw [hbuf, computeAccessFractions, if_pos (by norm_num [demoTechs])]
    rw [computeAccessFractionsGo_cons demoTechs [2] ⟨1, 10⟩ [] 0 _ _ 0 _ _
      (placeGroup_fit demoTechs [2] ⟨1, 10⟩ 0 _ _ (by norm_num [demoTechs])
        (by norm_num [tierCap, demoTechs, List.getD]))]
    rw [computeAccessFractionsGo]
    norm_num [List.set, List.getD]
  have ht1 : timeMetric demoTechs true [1] = 1 := by
    norm_num [timeMetric, avgTimePerAccess, demoTechs, List.range_succ, List.getD]
  have hac : allConfigs demoTechs = [[0], [1], [2]] := by
    norm_num [allConfigs, demoTechs, List.range_succ]
  have hp0 : passes demoTechs [⟨1, 10⟩] 100 [0] = false := by
    rw [passes, hv0, Bool.false_and]
  have hp1 : passes demoTechs [⟨1, 10⟩] 100 [1] = true := by
    rw [passes, hv1, Bool.true_and, decide_eq_true_eq, hc1]
    norm_num
  have hp2 : passes demoTechs [⟨1, 10⟩] 100 [2] = true := by
    rw [passes, hv2, Bool.true_and, decide_eq_true_eq, hc2]
    norm_num
  have hcand : candidates demoTechs [⟨1, 10⟩] 100 = [[1], [2]] := by
    rw [candidates, hac,
      List.filter_cons_of_neg (by rw [hp0]; exact Bool.false_ne_true),
      List.filter_cons_of_pos (by rw [hp1]),
      List.filter_cons_of_pos (by rw [hp2]), List.filter_nil]
  have e0 : evalLeaf demoTechs [⟨1, 10⟩] 100 true (initState demoTechs) [0]
      = some (initState demoTechs) := by
    apply evalLeaf_skip
    rintro ⟨hval, -⟩
    rw [hv0] at hval
    exact Bool.false_ne_true hval
  have e1 : evalLeaf demoTechs [⟨1, 10⟩] 100 true (initState demoTechs) [1]
      = some ⟨5, 1, [1], [1]⟩ := by
    rw [evalLeaf, if_pos hv1, if_pos (by rw [hc1]; norm_num), hcf1,
      Option.map_some', if_pos (Or.inl (by
        rw [ht1]
        show (1 : ℚ) < floatMax
        norm_num [floatMax]))]
    rw [ht1, hc1]
  have e2 : evalLeaf demoTechs [⟨1, 10⟩] 100 true ⟨5, 1, [1], [1]⟩ [2]
      = some ⟨5, 1, [1], [1]⟩ := by
    rw [evalLeaf, if_pos hv2, if_pos (by rw [hc2]; norm_num), hcf2,
      Option.map_some', if_neg (by
        rw [ht1, hc2]
        push_neg
        constructor
        · norm_num
        · intro h
          norm_num at h ⊢)]
  have hres : findBestConfig demoTechs [⟨1, 10⟩] 100 true
      = some ⟨5, 1, [1], [1]⟩ := by
    rw [findBestConfig, hac, List.foldlM_cons, e0]
    simp only [Option.bind_eq_bind, Option.some_bind]
    rw [List.foldlM_cons, e1]
    simp only [Option.bind_eq_bind, Option.some_bind]
    rw [List.foldlM_cons, e2]
    simp only [Option.bind_eq_bind, Option.some_bind]
    rw [List.foldlM_nil]
    rfl
  exact c6_search_optimality demoTechs [⟨1, 10⟩] 100 true ⟨5, 1, [1], [1]⟩ 1
    (by norm_num [demoTechs])
    (by
      intro t ht
      fin_cases ht <;> norm_num [demoTechs])
    (by
      intro g hg
      rw [List.mem_singleton] at hg
      subst hg
      norm_num)
    (by
      intro g hg
      rw [List.mem_singleton] at hg
      subst hg
      norm_num)
    (by norm_num)
    (by
      intro t ht
      fin_cases ht <;> norm_num [demoTechs])
    (by norm_num [floatMax])
    (by rw [hcand]; exact fun h => List.noConfusion h)
    hres

end Budgetizer
